import Mathlib

/-!
Shallow embedding of openMVG `src/openMVG/image/image_convolution_cpp_thread.hpp`
(threaded separable 1-D convolution over 2-D pixel buffers).

Modelling conventions:
* A pixel buffer (`Image<T>` with contiguous row-major storage) is modelled as a
  total function `Nat → Nat → P` from (row, col) to pixel values, together with the
  explicit `rows`/`cols` extents that the C++ code reads via `img.rows()` / `img.cols()`.
  A `memcpy` of a row (resp. an element-wise column copy) corresponds to pointwise
  updates of all positions of that row (resp. column).
* The pixel type `P`, the kernel scalar type `Q` and the accumulator type
  `Accumulator<pix_t>::Type` are kept abstract: `ConvOps` bundles the product
  `pix_t * kernel_scalar → acc` used by `sum += line[...] * kernel(k)` and the
  narrowing conversion `acc → pix_t` performed by the store
  `out.coeffRef(row, col) = sum`.  `A` carries the additive monoid structure used by
  `acc_pix_t sum(0); sum += ...`.
* C++ `int` loop counters are modelled by `Nat`; every loop bound of the source of
  the shape `a < b - k` (with `a, b, k ≥ 0`) behaves identically under truncated
  `Nat` subtraction because a negative C++ bound and a zero `Nat` bound both make
  the loop body run zero times.
* Loops are modelled as structural recursions (`stepRows`, `foldPairs`,
  `unrolledCols`) mirroring the source's iteration order; thread spawn + join over
  disjoint bands is modelled as in-order sequential application of the band calls
  (the band-commutation lemmas below justify that the order is irrelevant).
-/

set_option maxHeartbeats 1600000

namespace OpenMVG

/-- A 2-D pixel buffer: value at (row, col). -/
abbrev Img (P : Type) := Nat → Nat → P

/-- The numeric operations connecting the pixel type `P`, the kernel scalar type `Q`
and the accumulator type `A` (`Accumulator<pix_t>::Type`): `mul` is the product
`pixel * weight` feeding `sum +=`, `narrow` the conversion applied when the
accumulated sum is stored back into a pixel. -/
structure ConvOps (P Q A : Type) where
  mul : P → Q → A
  narrow : A → P

/-- Modelled from the spec: the border policy enumeration `EBorderManagement`
(declared outside the given sources): `BORDER_COPY` replicates edge pixels,
`BORDER_CROP` restricts output to fully supported positions. -/
inductive EBorderManagement where
  | BORDER_COPY
  | BORDER_CROP
deriving DecidableEq

export EBorderManagement (BORDER_COPY BORDER_CROP)

/-- The pair of buffers a copy-mode convolution call works on: the (const) input
image and the output image it writes into. -/
structure ConvState (P : Type) where
  img : Img P
  out : Img P

attribute [ext] ConvState

variable {P Q A : Type} {σ : Type}

/-- `acc_pix_t sum(0); for (k = 0; k < kw; ++k) sum += f(k) * kernel(k);` —
the accumulation loop shared by every convolution inner loop. -/
def accumKernel [AddCommMonoid A] (ops : ConvOps P Q A) (f : Nat → P)
    (kernel : Nat → Q) (kw : Nat) : A :=
  (List.range kw).foldl (fun s k => s + ops.mul (f k) (kernel k)) 0

/-- Modelled from the spec: `conv_buffer_` (declared in
`image_convolution_base.hpp`, which is not among the given sources) convolves a
padded line buffer with the kernel in full, producing `rsize` output values:
`buffer[i] = Σ_{j<ksize} buffer[i+j] * kernel[j]` for `i < rsize`, each sum
accumulated in the accumulator type and narrowed at the store; entries at or
beyond `rsize` are left as they were. -/
def conv_buffer_ [AddCommMonoid A] (ops : ConvOps P Q A) (buffer : Nat → P)
    (kernel : Nat → Q) (rsize ksize : Nat) : Nat → P :=
  fun i =>
    if i < rsize then ops.narrow (accumKernel ops (fun j => buffer (i + j)) kernel ksize)
    else buffer i

/-- The padded line built by the `BORDER_COPY` branch of the horizontal passes:
`line[k] = img(row, 0)` for `k < hw`, then `memcpy` of the row, then
`line[k + hw + cols] = img(row, cols - 1)` for `k < hw`. -/
def paddedRow (img : Img P) (cols hw row : Nat) : Nat → P :=
  fun i =>
    if i < hw then img row 0
    else if i < hw + cols then img row (i - hw)
    else img row (cols - 1)

/-- The padded column built by the `BORDER_COPY` branch of the in-place vertical
pass: `line[k] = img(0, col)` for `k < hw`, then the column, then
`line[k + hw + rows] = img(rows - 1, col)` for `k < hw`. -/
def paddedCol (img : Img P) (rows hw col : Nat) : Nat → P :=
  fun i =>
    if i < hw then img 0 col
    else if i < hw + rows then img (i - hw) col
    else img (rows - 1) col

/-- `memcpy(out.data() + row*cols, v, sizeof(pix_t)*cols)`: overwrite the
`cols` entries of row `row` with `v`. -/
def writeRow (out : Img P) (row cols : Nat) (v : Nat → P) : Img P :=
  fun r c => if r = row ∧ c < cols then v c else out r c

/-- `for (col = hw; col < cols - hw; ++col) out.coeffRef(row, col) = v(col);` —
the interior-column writes of a `BORDER_CROP` horizontal pass (each column is
written at most once, so the loop's net effect is this pointwise update). -/
def writeRowInterior (out : Img P) (row hw cols : Nat) (v : Nat → P) : Img P :=
  fun r c => if r = row ∧ hw ≤ c ∧ c < cols - hw then v c else out r c

/-- `for (row = 0; row < rows; ++row) img(row, col) = v(row);` — overwrite the
whole column `col`. -/
def writeColFull (out : Img P) (col rows : Nat) (v : Nat → P) : Img P :=
  fun r c => if c = col ∧ r < rows then v r else out r c

/-- `for (row = hw; row < rows - hw; ++row) out.coeffRef(row, col) = v(row);` —
the interior-row writes of a `BORDER_CROP` vertical pass. -/
def writeColInterior (out : Img P) (col hw rows : Nat) (v : Nat → P) : Img P :=
  fun r c => if c = col ∧ hw ≤ r ∧ r < rows - hw then v r else out r c

/-- A single write `out.coeffRef(row, col) = x`. -/
def writeAt (out : Img P) (row col : Nat) (x : P) : Img P :=
  fun r c => if r = row ∧ c = col then x else out r c

/-- `for (i = start; i < start + n; ++i) st = step i st;` — the generic
counted loop shared by all row/column band loops. -/
def stepRows (step : Nat → σ → σ) : Nat → Nat → σ → σ
  | _, 0, st => st
  | s, n + 1, st => stepRows step (s + 1) n (step s st)

/-- The per-row body of copy-mode `ImageHorizontalConvolution`
(`image_convolution_cpp_thread.hpp` lines 48–65 for `BORDER_COPY`,
71–86 for `BORDER_CROP`). -/
def hRowStep [AddCommMonoid A] (ops : ConvOps P Q A) (cols : Nat) (kernel : Nat → Q)
    (kw : Nat) (m : EBorderManagement) (row : Nat) (st : ConvState P) : ConvState P :=
  match m with
  | BORDER_COPY =>
      { st with
        out := writeRow st.out row cols
                 (conv_buffer_ ops (paddedRow st.img cols (kw / 2) row) kernel cols kw) }
  | BORDER_CROP =>
      { st with
        out := writeRowInterior st.out row (kw / 2) cols
                 (fun col => ops.narrow
                   (accumKernel ops (fun k => st.img row (k + col - kw / 2)) kernel kw)) }

/-- Copy-mode `ImageHorizontalConvolution` (lines 31–88): convolve rows
`[start_row, end_row)` of `st.img` into `st.out`. -/
def ImageHorizontalConvolution [AddCommMonoid A] (ops : ConvOps P Q A) (cols : Nat)
    (kernel : Nat → Q) (kw : Nat) (st : ConvState P) (start_row end_row : Nat)
    (m : EBorderManagement) : ConvState P :=
  stepRows (hRowStep ops cols kernel kw m) start_row (end_row - start_row) st

/-- The per-row body of in-place `ImageHorizontalConvolution` (lines 113–155).
In both branches the working line is captured from the current image before the
row is overwritten: the closures below read the un-updated `img`. -/
def hRowStepInPlace [AddCommMonoid A] (ops : ConvOps P Q A) (cols : Nat)
    (kernel : Nat → Q) (kw : Nat) (m : EBorderManagement) (row : Nat)
    (img : Img P) : Img P :=
  match m with
  | BORDER_COPY =>
      writeRow img row cols
        (conv_buffer_ ops (paddedRow img cols (kw / 2) row) kernel cols kw)
  | BORDER_CROP =>
      writeRowInterior img row (kw / 2) cols
        (fun col => ops.narrow
          (accumKernel ops (fun k => img row (k + col - kw / 2)) kernel kw))

/-- In-place `ImageHorizontalConvolution` (lines 101–156). -/
def ImageHorizontalConvolutionInPlace [AddCommMonoid A] (ops : ConvOps P Q A)
    (cols : Nat) (kernel : Nat → Q) (kw : Nat) (img : Img P)
    (start_row end_row : Nat) (m : EBorderManagement) : Img P :=
  stepRows (hRowStepInPlace ops cols kernel kw m) start_row (end_row - start_row) img

/-- `input_index[i] = min(rows - 1, max(0, row - hw + i))` (lines 193–198);
`max 0` of the C++ `int` expression `row - hw + i` is truncated `Nat`
subtraction `(row + i) - hw`. -/
def clampRow (rows hw row k : Nat) : Nat :=
  min (rows - 1) (row + k - hw)

/-- Column indices written by the 4-wide unrolled loop
`for (col = start; col < end_col - 4; col += 4)` (lines 201–222), with
sufficient fuel; each iteration writes `col, col+1, col+2, col+3`. -/
def unrolledCols (e : Nat) : Nat → Nat → List Nat
  | 0, _ => []
  | fuel + 1, col =>
      if col < e - 4 then
        col :: (col + 1) :: (col + 2) :: (col + 3) :: unrolledCols e fuel (col + 4)
      else []

/-- The value of `col` when the unrolled loop exits (the start point of the
scalar tail loop, lines 225–236). -/
def unrolledExit (e : Nat) : Nat → Nat → Nat
  | 0, col => col
  | fuel + 1, col => if col < e - 4 then unrolledExit e fuel (col + 4) else col

/-- All column indices written in one row of the vertical `BORDER_COPY` copy-mode
pass: the unrolled 4-wide loop followed by the scalar tail loop. -/
def vRowWriteCols (s e : Nat) : List Nat :=
  unrolledCols e e s ++ List.range' (unrolledExit e e s) (e - unrolledExit e e s)

/-- Perform the listed single-column writes of one row in order. -/
def applyColWrites (row : Nat) (v : Nat → P) (l : List Nat) (out : Img P) : Img P :=
  l.foldl (fun o c => writeAt o row c (v c)) out

/-- The per-row body of the vertical `BORDER_COPY` copy-mode pass
(lines 190–237): compute the clamped row indices, then write the band's columns
via the unrolled loop and the scalar tail; both compute
`Σ_k img(input_index[k], col) * kernel(k)`. -/
def vRowStepBC [AddCommMonoid A] (ops : ConvOps P Q A) (rows : Nat)
    (kernel : Nat → Q) (kw : Nat) (s e : Nat) (row : Nat) (st : ConvState P) :
    ConvState P :=
  { st with
    out := applyColWrites row
             (fun col => ops.narrow
               (accumKernel ops (fun k => st.img (clampRow rows (kw / 2) row k) col) kernel kw))
             (vRowWriteCols s e) st.out }

/-- The per-column body of the vertical `BORDER_CROP` copy-mode pass
(lines 243–261): copy the column into a line, then write interior rows. -/
def vColStepCrop [AddCommMonoid A] (ops : ConvOps P Q A) (rows : Nat)
    (kernel : Nat → Q) (kw : Nat) (col : Nat) (st : ConvState P) : ConvState P :=
  { st with
    out := writeColInterior st.out col (kw / 2) rows
             (fun row => ops.narrow
               (accumKernel ops (fun k => st.img (k + row - kw / 2) col) kernel kw)) }

/-- Copy-mode `ImageVerticalConvolution` (lines 170–263): the `BORDER_COPY`
branch loops over all rows with the column band inside; the `BORDER_CROP`
branch loops over the column band. -/
def ImageVerticalConvolution [AddCommMonoid A] (ops : ConvOps P Q A) (rows : Nat)
    (kernel : Nat → Q) (kw : Nat) (st : ConvState P) (start_col end_col : Nat)
    (m : EBorderManagement) : ConvState P :=
  match m with
  | BORDER_COPY => stepRows (vRowStepBC ops rows kernel kw start_col end_col) 0 rows st
  | BORDER_CROP => stepRows (vColStepCrop ops rows kernel kw) start_col
      (end_col - start_col) st

/-- The per-column body of in-place `ImageVerticalConvolution` (lines 288–338):
the working column is captured (padded in `BORDER_COPY`) before any write. -/
def vColStepInPlace [AddCommMonoid A] (ops : ConvOps P Q A) (rows : Nat)
    (kernel : Nat → Q) (kw : Nat) (m : EBorderManagement) (col : Nat)
    (img : Img P) : Img P :=
  match m with
  | BORDER_COPY =>
      writeColFull img col rows
        (conv_buffer_ ops (paddedCol img rows (kw / 2) col) kernel rows kw)
  | BORDER_CROP =>
      writeColInterior img col (kw / 2) rows
        (fun row => ops.narrow
          (accumKernel ops (fun k => img (k + row - kw / 2) col) kernel kw))

/-- In-place `ImageVerticalConvolution` (lines 274–340). -/
def ImageVerticalConvolutionInPlace [AddCommMonoid A] (ops : ConvOps P Q A)
    (rows : Nat) (kernel : Nat → Q) (kw : Nat) (img : Img P)
    (start_col end_col : Nat) (m : EBorderManagement) : Img P :=
  stepRows (vColStepInPlace ops rows kernel kw m) start_col (end_col - start_col) img

/-- Modelled from the spec: `SplitRange` (declared outside the given sources)
computes `T+1` boundaries over `[a, b)` for `T = max nb 1` workers (a reported
hardware concurrency of zero means a single band), `range[i] = a + i*(b-a)/T`:
`range[0] = a`, `range[T] = b`, non-decreasing, band sizes near-equal. -/
def SplitRange (a b nb : Nat) : List Nat :=
  (List.range (max nb 1 + 1)).map (fun i => a + i * (b - a) / max nb 1)

/-- `for (i = 1; i < range.size(); ++i) st = f range[i-1] range[i] st;` — the
spawn loop of every threaded entry point applies the engine to each adjacent
boundary pair; spawn + join over disjoint bands is modelled as in-order
sequential application. -/
def foldPairs (f : Nat → Nat → σ → σ) : List Nat → σ → σ
  | [], st => st
  | [_], st => st
  | a :: b :: rest, st => foldPairs f (b :: rest) (f a b st)

/-- The band table actually handed to workers by the spawn loops (lines 369–371,
401–404, 442–446, 479–483): one worker per adjacent boundary pair, with no
emptiness check. -/
def spawnedBands (range : List Nat) : List (Nat × Nat) :=
  range.zip range.tail

/-- `ImageHorizontalConvolutionCPPThread` (lines 351–376).  `out.resize` keeps
the buffer contents of the modelled `out` function; `hardware_concurrency` is
the explicit `nbThread` parameter. -/
def ImageHorizontalConvolutionCPPThread [AddCommMonoid A] (ops : ConvOps P Q A)
    (cols : Nat) (kernel : Nat → Q) (kw : Nat) (st : ConvState P) (rows : Nat)
    (m : EBorderManagement) (nbThread : Nat) : ConvState P :=
  foldPairs (fun a b acc => ImageHorizontalConvolution ops cols kernel kw acc a b m)
    (SplitRange 0 rows nbThread) st

/-- In-place `ImageHorizontalConvolutionCPPThread` (lines 386–410). -/
def ImageHorizontalConvolutionCPPThreadInPlace [AddCommMonoid A] (ops : ConvOps P Q A)
    (cols : Nat) (kernel : Nat → Q) (kw : Nat) (img : Img P) (rows : Nat)
    (m : EBorderManagement) (nbThread : Nat) : Img P :=
  foldPairs (fun a b acc => ImageHorizontalConvolutionInPlace ops cols kernel kw acc a b m)
    (SplitRange 0 rows nbThread) img

/-- `ImageVerticalConvolutionCPPThread` (lines 422–452). -/
def ImageVerticalConvolutionCPPThread [AddCommMonoid A] (ops : ConvOps P Q A)
    (rows : Nat) (kernel : Nat → Q) (kw : Nat) (st : ConvState P) (cols : Nat)
    (m : EBorderManagement) (nbThread : Nat) : ConvState P :=
  foldPairs (fun a b acc => ImageVerticalConvolution ops rows kernel kw acc a b m)
    (SplitRange 0 cols nbThread) st

/-- In-place `ImageVerticalConvolutionCPPThread` (lines 462–489). -/
def ImageVerticalConvolutionCPPThreadInPlace [AddCommMonoid A] (ops : ConvOps P Q A)
    (rows : Nat) (kernel : Nat → Q) (kw : Nat) (img : Img P) (cols : Nat)
    (m : EBorderManagement) (nbThread : Nat) : Img P :=
  foldPairs (fun a b acc => ImageVerticalConvolutionInPlace ops rows kernel kw acc a b m)
    (SplitRange 0 cols nbThread) img

/-! ### Generic loop lemmas -/

theorem stepRows_zero (step : Nat → σ → σ) (s : Nat) (st : σ) :
    stepRows step s 0 st = st := rfl

theorem stepRows_succ (step : Nat → σ → σ) (s n : Nat) (st : σ) :
    stepRows step s (n + 1) st = stepRows step (s + 1) n (step s st) := rfl

theorem stepRows_append (step : Nat → σ → σ) (s m n : Nat) (st : σ) :
    stepRows step (s + m) n (stepRows step s m st) = stepRows step s (m + n) st := by
  induction m generalizing s st with
  | zero => simp [stepRows_zero]
  | succ k ih =>
      rw [show (k + 1) + n = (k + n) + 1 by omega, stepRows_succ step s (k + n),
        stepRows_succ step s k, show s + (k + 1) = (s + 1) + k by omega]
      exact ih (s + 1) (step s st)

theorem stepRows_congr_id (step : Nat → σ → σ) (s n : Nat) (st : σ)
    (h : ∀ i st', step i st' = st') : stepRows step s n st = st := by
  induction n generalizing s st with
  | zero => rfl
  | succ k ih => rw [stepRows_succ, h s st]; exact ih (s + 1) st

/-! ### Horizontal pass: closed forms -/

/-- The column positions a horizontal pass writes inside a processed row. -/
def hWrites (m : EBorderManagement) (cols kw c : Nat) : Prop :=
  match m with
  | BORDER_COPY => c < cols
  | BORDER_CROP => kw / 2 ≤ c ∧ c < cols - kw / 2

instance hWritesDec (m : EBorderManagement) (cols kw c : Nat) :
    Decidable (hWrites m cols kw c) :=
  match m with
  | BORDER_COPY => inferInstanceAs (Decidable (c < cols))
  | BORDER_CROP => inferInstanceAs (Decidable (kw / 2 ≤ c ∧ c < cols - kw / 2))

/-- The value a horizontal pass stores at a written position, as a function of
the source image. -/
def hValue [AddCommMonoid A] (ops : ConvOps P Q A) (img : Img P) (cols : Nat)
    (kernel : Nat → Q) (kw : Nat) (m : EBorderManagement) (row c : Nat) : P :=
  match m with
  | BORDER_COPY => conv_buffer_ ops (paddedRow img cols (kw / 2) row) kernel cols kw c
  | BORDER_CROP => ops.narrow (accumKernel ops (fun k => img row (k + c - kw / 2)) kernel kw)

theorem hValue_congr [AddCommMonoid A] (ops : ConvOps P Q A) (img img' : Img P)
    (cols : Nat) (kernel : Nat → Q) (kw : Nat) (m : EBorderManagement) (row c : Nat)
    (h : ∀ c', img row c' = img' row c') :
    hValue ops img cols kernel kw m row c = hValue ops img' cols kernel kw m row c := by
  have hpad : paddedRow img cols (kw / 2) row = paddedRow img' cols (kw / 2) row := by
    funext i; simp only [paddedRow, h]
  cases m <;> simp only [hValue, hpad, h]

theorem hRowStep_img [AddCommMonoid A] (ops : ConvOps P Q A) (cols : Nat)
    (kernel : Nat → Q) (kw : Nat) (m : EBorderManagement) (row : Nat)
    (st : ConvState P) : (hRowStep ops cols kernel kw m row st).img = st.img := by
  cases m <;> rfl

theorem hRowStep_out [AddCommMonoid A] (ops : ConvOps P Q A) (cols : Nat)
    (kernel : Nat → Q) (kw : Nat) (m : EBorderManagement) (row : Nat)
    (st : ConvState P) (r c : Nat) :
    (hRowStep ops cols kernel kw m row st).out r c =
      if r = row ∧ hWrites m cols kw c then hValue ops st.img cols kernel kw m row c
      else st.out r c := by
  cases m <;> rfl

theorem hconv_loop_img [AddCommMonoid A] (ops : ConvOps P Q A) (cols : Nat)
    (kernel : Nat → Q) (kw : Nat) (m : EBorderManagement) (s n : Nat)
    (st : ConvState P) :
    (stepRows (hRowStep ops cols kernel kw m) s n st).img = st.img := by
  induction n generalizing s st with
  | zero => rfl
  | succ k ih => rw [stepRows_succ, ih, hRowStep_img]

theorem hconv_loop_out [AddCommMonoid A] (ops : ConvOps P Q A) (cols : Nat)
    (kernel : Nat → Q) (kw : Nat) (m : EBorderManagement) (s n : Nat)
    (st : ConvState P) (r c : Nat) :
    (stepRows (hRowStep ops cols kernel kw m) s n st).out r c =
      if s ≤ r ∧ r < s + n ∧ hWrites m cols kw c then
        hValue ops st.img cols kernel kw m r c
      else st.out r c := by
  induction n generalizing s st with
  | zero =>
      rw [stepRows_zero, if_neg]
      rintro ⟨h1, h2, -⟩; omega
  | succ k ih =>
      rw [stepRows_succ, ih, hRowStep_img, hRowStep_out]
      by_cases hw : hWrites m cols kw c
      · simp only [hw, and_true]
        rcases eq_or_ne r s with rfl | hne
        · rw [if_neg (by omega), if_pos rfl, if_pos (by omega)]
        · by_cases hA : s + 1 ≤ r ∧ r < s + 1 + k
          · rw [if_pos hA, if_pos (by omega)]
          · rw [if_neg hA, if_neg hne, if_neg (by omega)]
      · rw [if_neg (by tauto), if_neg (by tauto), if_neg (by tauto)]

theorem ImageHorizontalConvolution_img [AddCommMonoid A] (ops : ConvOps P Q A)
    (cols : Nat) (kernel : Nat → Q) (kw : Nat) (st : ConvState P) (s e : Nat)
    (m : EBorderManagement) :
    (ImageHorizontalConvolution ops cols kernel kw st s e m).img = st.img :=
  hconv_loop_img ops cols kernel kw m s (e - s) st

theorem ImageHorizontalConvolution_out [AddCommMonoid A] (ops : ConvOps P Q A)
    (cols : Nat) (kernel : Nat → Q) (kw : Nat) (st : ConvState P) (s e : Nat)
    (m : EBorderManagement) (r c : Nat) :
    (ImageHorizontalConvolution ops cols kernel kw st s e m).out r c =
      if s ≤ r ∧ r < e ∧ hWrites m cols kw c then
        hValue ops st.img cols kernel kw m r c
      else st.out r c := by
  rw [ImageHorizontalConvolution, hconv_loop_out]
  by_cases hw : hWrites m cols kw c
  · simp only [hw, and_true]
    by_cases h1 : s ≤ r ∧ r < s + (e - s)
    · rw [if_pos h1, if_pos (by omega)]
    · rw [if_neg h1, if_neg (by omega)]
  · rw [if_neg (by tauto), if_neg (by tauto)]

theorem hconv_inplace_loop_out [AddCommMonoid A] (ops : ConvOps P Q A) (cols : Nat)
    (kernel : Nat → Q) (kw : Nat) (m : EBorderManagement) (s n : Nat)
    (img : Img P) (r c : Nat) :
    stepRows (hRowStepInPlace ops cols kernel kw m) s n img r c =
      if s ≤ r ∧ r < s + n ∧ hWrites m cols kw c then
        hValue ops img cols kernel kw m r c
      else img r c := by
  induction n generalizing s img with
  | zero =>
      rw [stepRows_zero, if_neg]
      rintro ⟨h1, h2, -⟩; omega
  | succ k ih =>
      have hstep : ∀ r' c', hRowStepInPlace ops cols kernel kw m s img r' c' =
          if r' = s ∧ hWrites m cols kw c' then hValue ops img cols kernel kw m s c'
          else img r' c' := by
        intro r' c'; cases m <;> rfl
      rw [stepRows_succ, ih]
      by_cases hw : hWrites m cols kw c
      · simp only [hw, and_true]
        rcases eq_or_ne r s with rfl | hne
        · rw [if_neg (by omega), hstep, if_pos ⟨rfl, hw⟩, if_pos (by omega)]
        · by_cases hA : s + 1 ≤ r ∧ r < s + 1 + k
          · rw [if_pos hA, if_pos (by omega)]
            exact hValue_congr ops _ img cols kernel kw m r c fun c' => by
              rw [hstep, if_neg (by tauto)]
          · rw [if_neg hA, hstep, if_neg (by tauto), if_neg (by omega)]
      · rw [if_neg (by tauto), hstep, if_neg (by tauto), if_neg (by tauto)]

theorem ImageHorizontalConvolutionInPlace_eq [AddCommMonoid A] (ops : ConvOps P Q A)
    (cols : Nat) (kernel : Nat → Q) (kw : Nat) (img : Img P) (s e : Nat)
    (m : EBorderManagement) (r c : Nat) :
    ImageHorizontalConvolutionInPlace ops cols kernel kw img s e m r c =
      if s ≤ r ∧ r < e ∧ hWrites m cols kw c then
        hValue ops img cols kernel kw m r c
      else img r c := by
  rw [ImageHorizontalConvolutionInPlace, hconv_inplace_loop_out]
  by_cases hw : hWrites m cols kw c
  · simp only [hw, and_true]
    by_cases h1 : s ≤ r ∧ r < s + (e - s)
    · rw [if_pos h1, if_pos (by omega)]
    · rw [if_neg h1, if_neg (by omega)]
  · rw [if_neg (by tauto), if_neg (by tauto)]

/-! ### Vertical pass: write lists and closed forms -/

theorem accumKernel_congr [AddCommMonoid A] (ops : ConvOps P Q A) (f g : Nat → P)
    (kernel : Nat → Q) (kw : Nat) (h : ∀ k, f k = g k) :
    accumKernel ops f kernel kw = accumKernel ops g kernel kw := by
  rw [funext h]

theorem unrolledCols_succ (e fuel col : Nat) :
    unrolledCols e (fuel + 1) col =
      if col < e - 4 then
        col :: (col + 1) :: (col + 2) :: (col + 3) :: unrolledCols e fuel (col + 4)
      else [] := rfl

theorem unrolledExit_succ (e fuel col : Nat) :
    unrolledExit e (fuel + 1) col =
      if col < e - 4 then unrolledExit e fuel (col + 4) else col := rfl

/-- With sufficient fuel, the unrolled 4-wide loop followed by the scalar tail
covers exactly the half-open column range, in order. -/
theorem unrolled_append (e : Nat) (fuel : Nat) : ∀ col, e - 4 - col ≤ fuel →
    unrolledCols e fuel col ++
      List.range' (unrolledExit e fuel col) (e - unrolledExit e fuel col) =
    List.range' col (e - col) := by
  induction fuel with
  | zero =>
      intro col hcol
      simp [unrolledCols, unrolledExit]
  | succ fuel ih =>
      intro col hcol
      by_cases h : col < e - 4
      · rw [unrolledCols_succ, unrolledExit_succ, if_pos h, if_pos h]
        have htail := ih (col + 4) (by omega)
        have h4 : List.range' col 4 = [col, col + 1, col + 2, col + 3] := rfl
        calc (col :: (col + 1) :: (col + 2) :: (col + 3) :: unrolledCols e fuel (col + 4)) ++
              List.range' (unrolledExit e fuel (col + 4))
                (e - unrolledExit e fuel (col + 4))
            = List.range' col 4 ++ (unrolledCols e fuel (col + 4) ++
                List.range' (unrolledExit e fuel (col + 4))
                  (e - unrolledExit e fuel (col + 4))) := by rw [h4]; rfl
          _ = List.range' col 4 ++ List.range' (col + 4) (e - (col + 4)) := by rw [htail]
          _ = List.range' col (e - (col + 4) + 4) := List.range'_append_1 col 4 _
          _ = List.range' col (e - col) := by congr 1; omega
      · rw [unrolledCols_succ, unrolledExit_succ, if_neg h, if_neg h]
        simp

theorem vRowWriteCols_eq (s e : Nat) : vRowWriteCols s e = List.range' s (e - s) :=
  unrolled_append e e s (by omega)

theorem applyColWrites_eq (row : Nat) (v : Nat → P) (l : List Nat) (out : Img P)
    (r c : Nat) :
    applyColWrites row v l out r c = if r = row ∧ c ∈ l then v c else out r c := by
  induction l generalizing out with
  | nil => simp [applyColWrites]
  | cons x xs ih =>
      show applyColWrites row v xs (writeAt out row x (v x)) r c = _
      rw [ih]
      by_cases hr : r = row
      · subst hr
        by_cases hmem : c ∈ xs
        · rw [if_pos ⟨rfl, hmem⟩, if_pos ⟨rfl, List.mem_cons_of_mem _ hmem⟩]
        · rw [if_neg (by tauto)]
          show (if r = r ∧ c = x then v x else out r c) = _
          by_cases hcx : c = x
          · subst hcx
            rw [if_pos ⟨rfl, rfl⟩, if_pos ⟨rfl, List.mem_cons_self c xs⟩]
          · rw [if_neg (by tauto), if_neg (by
              rintro ⟨-, hmem2⟩
              rcases List.mem_cons.mp hmem2 with h | h
              exacts [hcx h, hmem h])]
      · rw [if_neg (by tauto), if_neg (by tauto)]
        show (if r = row ∧ c = x then v x else out r c) = out r c
        rw [if_neg (by tauto)]

/-- The (row, col) positions a vertical pass writes. -/
def vWrites (m : EBorderManagement) (rows kw s e r c : Nat) : Prop :=
  match m with
  | BORDER_COPY => r < rows ∧ s ≤ c ∧ c < e
  | BORDER_CROP => s ≤ c ∧ c < e ∧ kw / 2 ≤ r ∧ r < rows - kw / 2

instance vWritesDec (m : EBorderManagement) (rows kw s e r c : Nat) :
    Decidable (vWrites m rows kw s e r c) :=
  match m with
  | BORDER_COPY => inferInstanceAs (Decidable (r < rows ∧ s ≤ c ∧ c < e))
  | BORDER_CROP => inferInstanceAs (Decidable (s ≤ c ∧ c < e ∧ kw / 2 ≤ r ∧ r < rows - kw / 2))

/-- The value a copy-mode vertical pass stores at a written position. -/
def vValue [AddCommMonoid A] (ops : ConvOps P Q A) (img : Img P) (rows : Nat)
    (kernel : Nat → Q) (kw : Nat) (m : EBorderManagement) (r c : Nat) : P :=
  match m with
  | BORDER_COPY =>
      ops.narrow (accumKernel ops (fun k => img (clampRow rows (kw / 2) r k) c) kernel kw)
  | BORDER_CROP =>
      ops.narrow (accumKernel ops (fun k => img (k + r - kw / 2) c) kernel kw)

theorem vRowStepBC_img [AddCommMonoid A] (ops : ConvOps P Q A) (rows : Nat)
    (kernel : Nat → Q) (kw s e row : Nat) (st : ConvState P) :
    (vRowStepBC ops rows kernel kw s e row st).img = st.img := rfl

theorem vRowStepBC_out [AddCommMonoid A] (ops : ConvOps P Q A) (rows : Nat)
    (kernel : Nat → Q) (kw s e row : Nat) (st : ConvState P) (r c : Nat) :
    (vRowStepBC ops rows kernel kw s e row st).out r c =
      if r = row ∧ s ≤ c ∧ c < e then
        vValue ops st.img rows kernel kw BORDER_COPY row c
      else st.out r c := by
  show applyColWrites row _ (vRowWriteCols s e) st.out r c = _
  rw [applyColWrites_eq, vRowWriteCols_eq]
  simp only [List.mem_range'_1]
  exact if_congr (by constructor <;> (rintro ⟨h1, h2, h3⟩; exact ⟨h1, h2, by omega⟩))
    rfl rfl

theorem vColStepCrop_img [AddCommMonoid A] (ops : ConvOps P Q A) (rows : Nat)
    (kernel : Nat → Q) (kw col : Nat) (st : ConvState P) :
    (vColStepCrop ops rows kernel kw col st).img = st.img := rfl

theorem vColStepCrop_out [AddCommMonoid A] (ops : ConvOps P Q A) (rows : Nat)
    (kernel : Nat → Q) (kw col : Nat) (st : ConvState P) (r c : Nat) :
    (vColStepCrop ops rows kernel kw col st).out r c =
      if c = col ∧ kw / 2 ≤ r ∧ r < rows - kw / 2 then
        vValue ops st.img rows kernel kw BORDER_CROP r c
      else st.out r c := by
  change writeColInterior st.out col (kw / 2) rows
    (fun row => ops.narrow
      (accumKernel ops (fun k => st.img (k + row - kw / 2) col) kernel kw)) r c = _
  unfold writeColInterior
  by_cases h : c = col ∧ kw / 2 ≤ r ∧ r < rows - kw / 2
  · rw [if_pos h, if_pos h]
    obtain ⟨rfl, -, -⟩ := h
    rfl
  · rw [if_neg h, if_neg h]

theorem vconvBC_loop_img [AddCommMonoid A] (ops : ConvOps P Q A) (rows : Nat)
    (kernel : Nat → Q) (kw s e t n : Nat) (st : ConvState P) :
    (stepRows (vRowStepBC ops rows kernel kw s e) t n st).img = st.img := by
  induction n generalizing t st with
  | zero => rfl
  | succ k ih => rw [stepRows_succ, ih, vRowStepBC_img]

theorem vconvBC_loop_out [AddCommMonoid A] (ops : ConvOps P Q A) (rows : Nat)
    (kernel : Nat → Q) (kw s e t n : Nat) (st : ConvState P) (r c : Nat) :
    (stepRows (vRowStepBC ops rows kernel kw s e) t n st).out r c =
      if t ≤ r ∧ r < t + n ∧ s ≤ c ∧ c < e then
        vValue ops st.img rows kernel kw BORDER_COPY r c
      else st.out r c := by
  induction n generalizing t st with
  | zero =>
      rw [stepRows_zero, if_neg]
      rintro ⟨h1, h2, -⟩; omega
  | succ k ih =>
      rw [stepRows_succ, ih, vRowStepBC_img, vRowStepBC_out]
      by_cases hw : s ≤ c ∧ c < e
      · rcases eq_or_ne r t with rfl | hne
        · rw [if_neg (by omega), if_pos ⟨rfl, hw⟩, if_pos ⟨le_refl r, by omega, hw⟩]
        · by_cases hA : t + 1 ≤ r ∧ r < t + 1 + k
          · rw [if_pos ⟨hA.1, hA.2, hw⟩, if_pos ⟨by omega, by omega, hw⟩]
          · rw [if_neg (by tauto), if_neg (by tauto), if_neg (by
              rintro ⟨h1, h2, -⟩
              exact hA ⟨by omega, by omega⟩)]
      · rw [if_neg (by tauto), if_neg (by tauto), if_neg (by tauto)]

theorem vconvCrop_loop_img [AddCommMonoid A] (ops : ConvOps P Q A) (rows : Nat)
    (kernel : Nat → Q) (kw t n : Nat) (st : ConvState P) :
    (stepRows (vColStepCrop ops rows kernel kw) t n st).img = st.img := by
  induction n generalizing t st with
  | zero => rfl
  | succ k ih => rw [stepRows_succ, ih, vColStepCrop_img]

theorem vconvCrop_loop_out [AddCommMonoid A] (ops : ConvOps P Q A) (rows : Nat)
    (kernel : Nat → Q) (kw t n : Nat) (st : ConvState P) (r c : Nat) :
    (stepRows (vColStepCrop ops rows kernel kw) t n st).out r c =
      if t ≤ c ∧ c < t + n ∧ kw / 2 ≤ r ∧ r < rows - kw / 2 then
        vValue ops st.img rows kernel kw BORDER_CROP r c
      else st.out r c := by
  induction n generalizing t st with
  | zero =>
      rw [stepRows_zero, if_neg]
      rintro ⟨h1, h2, -⟩; omega
  | succ k ih =>
      rw [stepRows_succ, ih, vColStepCrop_img, vColStepCrop_out]
      by_cases hw : kw / 2 ≤ r ∧ r < rows - kw / 2
      · rcases eq_or_ne c t with rfl | hne
        · rw [if_neg (by omega), if_pos ⟨rfl, hw⟩, if_pos ⟨le_refl c, by omega, hw⟩]
        · by_cases hA : t + 1 ≤ c ∧ c < t + 1 + k
          · rw [if_pos ⟨hA.1, hA.2, hw⟩, if_pos ⟨by omega, by omega, hw⟩]
          · rw [if_neg (by tauto), if_neg (by tauto), if_neg (by
              rintro ⟨h1, h2, -⟩
              exact hA ⟨by omega, by omega⟩)]
      · rw [if_neg (by tauto), if_neg (by tauto), if_neg (by tauto)]

theorem ImageVerticalConvolution_img [AddCommMonoid A] (ops : ConvOps P Q A)
    (rows : Nat) (kernel : Nat → Q) (kw : Nat) (st : ConvState P) (s e : Nat)
    (m : EBorderManagement) :
    (ImageVerticalConvolution ops rows kernel kw st s e m).img = st.img := by
  cases m
  · exact vconvBC_loop_img ops rows kernel kw s e 0 rows st
  · exact vconvCrop_loop_img ops rows kernel kw s (e - s) st

theorem ImageVerticalConvolution_out [AddCommMonoid A] (ops : ConvOps P Q A)
    (rows : Nat) (kernel : Nat → Q) (kw : Nat) (st : ConvState P) (s e : Nat)
    (m : EBorderManagement) (r c : Nat) :
    (ImageVerticalConvolution ops rows kernel kw st s e m).out r c =
      if vWrites m rows kw s e r c then vValue ops st.img rows kernel kw m r c
      else st.out r c := by
  cases m
  · rw [show ImageVerticalConvolution ops rows kernel kw st s e BORDER_COPY =
        stepRows (vRowStepBC ops rows kernel kw s e) 0 rows st from rfl,
      vconvBC_loop_out]
    exact if_congr (by
      show (0 ≤ r ∧ r < 0 + rows ∧ s ≤ c ∧ c < e) ↔ (r < rows ∧ s ≤ c ∧ c < e)
      omega) rfl rfl
  · rw [show ImageVerticalConvolution ops rows kernel kw st s e BORDER_CROP =
        stepRows (vColStepCrop ops rows kernel kw) s (e - s) st from rfl,
      vconvCrop_loop_out]
    exact if_congr (by
      show (s ≤ c ∧ c < s + (e - s) ∧ kw / 2 ≤ r ∧ r < rows - kw / 2) ↔ _
      constructor <;> (rintro ⟨h1, h2, h3⟩; exact ⟨h1, by omega, h3⟩)) rfl rfl

/-! ### In-place vertical pass: closed forms -/

/-- The row positions an in-place vertical pass writes inside a processed column. -/
def vWritesIP (m : EBorderManagement) (rows kw r : Nat) : Prop :=
  match m with
  | BORDER_COPY => r < rows
  | BORDER_CROP => kw / 2 ≤ r ∧ r < rows - kw / 2

instance vWritesIPDec (m : EBorderManagement) (rows kw r : Nat) :
    Decidable (vWritesIP m rows kw r) :=
  match m with
  | BORDER_COPY => inferInstanceAs (Decidable (r < rows))
  | BORDER_CROP => inferInstanceAs (Decidable (kw / 2 ≤ r ∧ r < rows - kw / 2))

/-- The value an in-place vertical pass stores at a written position, as a
function of the pre-call image. -/
def vValueIP [AddCommMonoid A] (ops : ConvOps P Q A) (img : Img P) (rows : Nat)
    (kernel : Nat → Q) (kw : Nat) (m : EBorderManagement) (r c : Nat) : P :=
  match m with
  | BORDER_COPY => conv_buffer_ ops (paddedCol img rows (kw / 2) c) kernel rows kw r
  | BORDER_CROP => ops.narrow (accumKernel ops (fun k => img (k + r - kw / 2) c) kernel kw)

theorem vValueIP_congr [AddCommMonoid A] (ops : ConvOps P Q A) (img img' : Img P)
    (rows : Nat) (kernel : Nat → Q) (kw : Nat) (m : EBorderManagement) (r c : Nat)
    (h : ∀ r', img r' c = img' r' c) :
    vValueIP ops img rows kernel kw m r c = vValueIP ops img' rows kernel kw m r c := by
  have hpad : paddedCol img rows (kw / 2) c = paddedCol img' rows (kw / 2) c := by
    funext i; simp only [paddedCol, h]
  cases m <;> simp only [vValueIP, hpad, h]

theorem vColStepInPlace_eq [AddCommMonoid A] (ops : ConvOps P Q A) (rows : Nat)
    (kernel : Nat → Q) (kw : Nat) (m : EBorderManagement) (col : Nat)
    (img : Img P) (r c : Nat) :
    vColStepInPlace ops rows kernel kw m col img r c =
      if c = col ∧ vWritesIP m rows kw r then vValueIP ops img rows kernel kw m r c
      else img r c := by
  cases m
  · change writeColFull img col rows
      (conv_buffer_ ops (paddedCol img rows (kw / 2) col) kernel rows kw) r c = _
    unfold writeColFull
    by_cases h : c = col ∧ r < rows
    · rw [if_pos h, if_pos ⟨h.1, h.2⟩]
      obtain ⟨rfl, -⟩ := h
      rfl
    · rw [if_neg h, if_neg (by tauto)]
  · change writeColInterior img col (kw / 2) rows
      (fun row => ops.narrow
        (accumKernel ops (fun k => img (k + row - kw / 2) col) kernel kw)) r c = _
    unfold writeColInterior
    by_cases h : c = col ∧ kw / 2 ≤ r ∧ r < rows - kw / 2
    · rw [if_pos h, if_pos ⟨h.1, h.2⟩]
      obtain ⟨rfl, -, -⟩ := h
      rfl
    · rw [if_neg h, if_neg (by tauto)]

theorem vconv_inplace_loop_out [AddCommMonoid A] (ops : ConvOps P Q A) (rows : Nat)
    (kernel : Nat → Q) (kw : Nat) (m : EBorderManagement) (t n : Nat)
    (img : Img P) (r c : Nat) :
    stepRows (vColStepInPlace ops rows kernel kw m) t n img r c =
      if t ≤ c ∧ c < t + n ∧ vWritesIP m rows kw r then
        vValueIP ops img rows kernel kw m r c
      else img r c := by
  induction n generalizing t img with
  | zero =>
      rw [stepRows_zero, if_neg]
      rintro ⟨h1, h2, -⟩; omega
  | succ k ih =>
      rw [stepRows_succ, ih]
      by_cases hw : vWritesIP m rows kw r
      · rcases eq_or_ne c t with rfl | hne
        · rw [if_neg (by omega), vColStepInPlace_eq, if_pos ⟨rfl, hw⟩,
            if_pos ⟨le_refl c, by omega, hw⟩]
        · by_cases hA : t + 1 ≤ c ∧ c < t + 1 + k
          · rw [if_pos ⟨hA.1, hA.2, hw⟩, if_pos ⟨by omega, by omega, hw⟩]
            exact vValueIP_congr ops _ img rows kernel kw m r c fun r' => by
              rw [vColStepInPlace_eq, if_neg (by tauto)]
          · rw [if_neg (by tauto), vColStepInPlace_eq, if_neg (by tauto),
              if_neg (by rintro ⟨h1, h2, -⟩; exact hA ⟨by omega, by omega⟩)]
      · rw [if_neg (by tauto), vColStepInPlace_eq, if_neg (by tauto), if_neg (by tauto)]

theorem ImageVerticalConvolutionInPlace_eq [AddCommMonoid A] (ops : ConvOps P Q A)
    (rows : Nat) (kernel : Nat → Q) (kw : Nat) (img : Img P) (s e : Nat)
    (m : EBorderManagement) (r c : Nat) :
    ImageVerticalConvolutionInPlace ops rows kernel kw img s e m r c =
      if s ≤ c ∧ c < e ∧ vWritesIP m rows kw r then
        vValueIP ops img rows kernel kw m r c
      else img r c := by
  rw [ImageVerticalConvolutionInPlace, vconv_inplace_loop_out]
  exact if_congr (by constructor <;> (rintro ⟨h1, h2, h3⟩; exact ⟨h1, by omega, h3⟩))
    rfl rfl

/-- The padded column of the in-place `BORDER_COPY` vertical pass holds exactly
the clamped-index pixels used by the copy-mode `BORDER_COPY` vertical pass. -/
theorem paddedCol_clampRow (img : Img P) (rows hw col r k : Nat) :
    paddedCol img rows hw col (r + k) = img (clampRow rows hw r k) col := by
  unfold paddedCol clampRow
  by_cases h1 : r + k < hw
  · rw [if_pos h1]
    have h0 : min (rows - 1) (r + k - hw) = 0 := by omega
    rw [h0]
  · rw [if_neg h1]
    by_cases h2 : r + k < hw + rows
    · rw [if_pos h2]
      have h0 : min (rows - 1) (r + k - hw) = r + k - hw := by omega
      rw [h0]
    · rw [if_neg h2]
      have h0 : min (rows - 1) (r + k - hw) = rows - 1 := by omega
      rw [h0]

/-- At a written position the in-place vertical value coincides with the
copy-mode vertical value. -/
theorem vValueIP_eq_vValue [AddCommMonoid A] (ops : ConvOps P Q A) (img : Img P)
    (rows : Nat) (kernel : Nat → Q) (kw : Nat) (m : EBorderManagement) (r c : Nat)
    (hr : r < rows) :
    vValueIP ops img rows kernel kw m r c = vValue ops img rows kernel kw m r c := by
  cases m
  · show conv_buffer_ ops (paddedCol img rows (kw / 2) c) kernel rows kw r = _
    unfold conv_buffer_
    rw [if_pos hr]
    show ops.narrow _ = ops.narrow _
    congr 1
    exact accumKernel_congr ops _ _ kernel kw fun k => paddedCol_clampRow img rows (kw / 2) c r k
  · rfl

/-! ### Accumulation as a big-operator sum -/

/-- The `sum += f(k) * kernel(k)` loop computes the mathematical sum
`Σ_{k < kw} f(k) * kernel(k)` in the accumulator monoid. -/
theorem accumKernel_eq_sum [AddCommMonoid A] (ops : ConvOps P Q A) (f : Nat → P)
    (kernel : Nat → Q) (kw : Nat) :
    accumKernel ops f kernel kw = ∑ k ∈ Finset.range kw, ops.mul (f k) (kernel k) := by
  induction kw with
  | zero => rfl
  | succ n ih =>
      unfold accumKernel
      rw [List.range_succ, List.foldl_append]
      show accumKernel ops f kernel n + ops.mul (f n) (kernel n) = _
      rw [ih, Finset.sum_range_succ]

/-! ### Band scheduler: SplitRange boundaries and the spawn loop -/

theorem SplitRange_head (N nb : Nat) : (SplitRange 0 N nb).head? = some 0 := by
  unfold SplitRange
  rw [List.range_succ_eq_map, List.map_cons, List.head?_cons]
  simp

theorem SplitRange_getLast (N nb : Nat) : (SplitRange 0 N nb).getLast? = some N := by
  unfold SplitRange
  rw [List.range_succ, List.map_append, List.map_singleton, List.getLast?_concat]
  have ht : 0 < max nb 1 := by omega
  rw [Nat.zero_add, Nat.sub_zero, Nat.mul_div_cancel_left N ht]

theorem SplitRange_chain (N nb : Nat) :
    List.Chain' (· ≤ ·) (SplitRange 0 N nb) := by
  unfold SplitRange
  rw [List.chain'_map]
  refine (List.chain'_range_succ _ (max nb 1)).mpr fun i hi => ?_
  have : i * (N - 0) ≤ (i + 1) * (N - 0) := Nat.mul_le_mul_right _ (by omega)
  exact Nat.add_le_add_left (Nat.div_le_div_right this) 0

theorem SplitRange_length (N nb : Nat) :
    (SplitRange 0 N nb).length = max nb 1 + 1 := by
  unfold SplitRange
  rw [List.length_map, List.length_range]

theorem chain'_le_getLast? {N : Nat} : ∀ (rest : List Nat) (a : Nat),
    List.Chain' (· ≤ ·) (a :: rest) → (a :: rest).getLast? = some N → a ≤ N
  | [], a, _, hlast => by
      simp only [List.getLast?_singleton, Option.some_inj] at hlast
      omega
  | b :: rest, a, hchain, hlast => by
      rw [List.getLast?_cons_cons] at hlast
      have hab : a ≤ b := (List.chain'_cons.mp hchain).1
      exact hab.trans (chain'_le_getLast? rest b (List.chain'_cons.mp hchain).2 hlast)

theorem foldPairs_from (f : Nat → Nat → σ → σ)
    (hnil : ∀ a st, f a a st = st)
    (hconcat : ∀ a b c st, a ≤ b → b ≤ c → f b c (f a b st) = f a c st)
    (N : Nat) : ∀ (rest : List Nat) (a : Nat) (st : σ),
    List.Chain' (· ≤ ·) (a :: rest) → (a :: rest).getLast? = some N →
    foldPairs f (a :: rest) st = f a N st
  | [], a, st, _, hlast => by
      simp only [List.getLast?_singleton, Option.some_inj] at hlast
      rw [foldPairs, hlast, hnil]
  | b :: rest, a, st, hchain, hlast => by
      rw [List.getLast?_cons_cons] at hlast
      have hab : a ≤ b := (List.chain'_cons.mp hchain).1
      have hchain' := (List.chain'_cons.mp hchain).2
      have hbN : b ≤ N := chain'_le_getLast? rest b hchain' hlast
      show foldPairs f (b :: rest) (f a b st) = f a N st
      rw [foldPairs_from f hnil hconcat N rest b (f a b st) hchain' hlast,
        hconcat a b N st hab hbN]

/-- Sequential application of a band function over a monotone boundary list
whose first boundary is `0` and last is `N` equals one application over the
full range, provided adjacent bands concatenate and empty bands are no-ops. -/
theorem foldPairs_full (f : Nat → Nat → σ → σ)
    (hnil : ∀ a st, f a a st = st)
    (hconcat : ∀ a b c st, a ≤ b → b ≤ c → f b c (f a b st) = f a c st)
    (N : Nat) (bands : List Nat) (st : σ)
    (hchain : List.Chain' (· ≤ ·) bands)
    (hhead : bands.head? = some 0) (hlast : bands.getLast? = some N) :
    foldPairs f bands st = f 0 N st := by
  cases bands with
  | nil => simp at hhead
  | cons a rest =>
      rw [List.head?_cons, Option.some_inj] at hhead
      subst hhead
      exact foldPairs_from f hnil hconcat N rest 0 st hchain hlast

/-! ### Band concatenation and commutation for the four engines -/

theorem hconv_nil [AddCommMonoid A] (ops : ConvOps P Q A) (cols : Nat)
    (kernel : Nat → Q) (kw a : Nat) (st : ConvState P) (m : EBorderManagement) :
    ImageHorizontalConvolution ops cols kernel kw st a a m = st := by
  rw [ImageHorizontalConvolution, Nat.sub_self, stepRows_zero]

theorem hconv_concat [AddCommMonoid A] (ops : ConvOps P Q A) (cols : Nat)
    (kernel : Nat → Q) (kw : Nat) (m : EBorderManagement) (a b c : Nat)
    (st : ConvState P) (hab : a ≤ b) (hbc : b ≤ c) :
    ImageHorizontalConvolution ops cols kernel kw
        (ImageHorizontalConvolution ops cols kernel kw st a b m) b c m =
      ImageHorizontalConvolution ops cols kernel kw st a c m := by
  unfold ImageHorizontalConvolution
  have h := stepRows_append (hRowStep ops cols kernel kw m) a (b - a) (c - b) st
  rw [show a + (b - a) = b by omega, show b - a + (c - b) = c - a by omega] at h
  exact h

theorem hconvIP_nil [AddCommMonoid A] (ops : ConvOps P Q A) (cols : Nat)
    (kernel : Nat → Q) (kw a : Nat) (img : Img P) (m : EBorderManagement) :
    ImageHorizontalConvolutionInPlace ops cols kernel kw img a a m = img := by
  rw [ImageHorizontalConvolutionInPlace, Nat.sub_self, stepRows_zero]

theorem hconvIP_concat [AddCommMonoid A] (ops : ConvOps P Q A) (cols : Nat)
    (kernel : Nat → Q) (kw : Nat) (m : EBorderManagement) (a b c : Nat)
    (img : Img P) (hab : a ≤ b) (hbc : b ≤ c) :
    ImageHorizontalConvolutionInPlace ops cols kernel kw
        (ImageHorizontalConvolutionInPlace ops cols kernel kw img a b m) b c m =
      ImageHorizontalConvolutionInPlace ops cols kernel kw img a c m := by
  unfold ImageHorizontalConvolutionInPlace
  have h := stepRows_append (hRowStepInPlace ops cols kernel kw m) a (b - a) (c - b) img
  rw [show a + (b - a) = b by omega, show b - a + (c - b) = c - a by omega] at h
  exact h

theorem vconvIP_nil [AddCommMonoid A] (ops : ConvOps P Q A) (rows : Nat)
    (kernel : Nat → Q) (kw a : Nat) (img : Img P) (m : EBorderManagement) :
    ImageVerticalConvolutionInPlace ops rows kernel kw img a a m = img := by
  rw [ImageVerticalConvolutionInPlace, Nat.sub_self, stepRows_zero]

theorem vconvIP_concat [AddCommMonoid A] (ops : ConvOps P Q A) (rows : Nat)
    (kernel : Nat → Q) (kw : Nat) (m : EBorderManagement) (a b c : Nat)
    (img : Img P) (hab : a ≤ b) (hbc : b ≤ c) :
    ImageVerticalConvolutionInPlace ops rows kernel kw
        (ImageVerticalConvolutionInPlace ops rows kernel kw img a b m) b c m =
      ImageVerticalConvolutionInPlace ops rows kernel kw img a c m := by
  unfold ImageVerticalConvolutionInPlace
  have h := stepRows_append (vColStepInPlace ops rows kernel kw m) a (b - a) (c - b) img
  rw [show a + (b - a) = b by omega, show b - a + (c - b) = c - a by omega] at h
  exact h

theorem vconv_nil [AddCommMonoid A] (ops : ConvOps P Q A) (rows : Nat)
    (kernel : Nat → Q) (kw a : Nat) (st : ConvState P) (m : EBorderManagement) :
    ImageVerticalConvolution ops rows kernel kw st a a m = st := by
  cases m
  · refine ConvState.ext (ImageVerticalConvolution_img ops rows kernel kw st a a _) ?_
    funext r c
    rw [ImageVerticalConvolution_out, if_neg]
    rintro ⟨-, h1, h2⟩; omega
  · rw [show ImageVerticalConvolution ops rows kernel kw st a a BORDER_CROP =
      stepRows (vColStepCrop ops rows kernel kw) a (a - a) st from rfl,
      Nat.sub_self, stepRows_zero]

theorem vconv_concat [AddCommMonoid A] (ops : ConvOps P Q A) (rows : Nat)
    (kernel : Nat → Q) (kw : Nat) (m : EBorderManagement) (a b c' : Nat)
    (st : ConvState P) (hab : a ≤ b) (hbc : b ≤ c') :
    ImageVerticalConvolution ops rows kernel kw
        (ImageVerticalConvolution ops rows kernel kw st a b m) b c' m =
      ImageVerticalConvolution ops rows kernel kw st a c' m := by
  refine ConvState.ext ?_ ?_
  · rw [ImageVerticalConvolution_img, ImageVerticalConvolution_img,
      ImageVerticalConvolution_img]
  · funext r c
    rw [ImageVerticalConvolution_out, ImageVerticalConvolution_out,
      ImageVerticalConvolution_out, ImageVerticalConvolution_img]
    cases m <;> simp only [vWrites] <;> split_ifs <;> first | rfl | omega

theorem hconv_comm [AddCommMonoid A] (ops : ConvOps P Q A) (cols : Nat)
    (kernel : Nat → Q) (kw : Nat) (m : EBorderManagement) (a b c d : Nat)
    (st : ConvState P) :
    ImageHorizontalConvolution ops cols kernel kw
        (ImageHorizontalConvolution ops cols kernel kw st a b m) c d m =
      ImageHorizontalConvolution ops cols kernel kw
        (ImageHorizontalConvolution ops cols kernel kw st c d m) a b m := by
  refine ConvState.ext ?_ ?_
  · simp only [ImageHorizontalConvolution_img]
  · funext r c'
    simp only [ImageHorizontalConvolution_out, ImageHorizontalConvolution_img]
    split_ifs <;> rfl

theorem vconv_comm [AddCommMonoid A] (ops : ConvOps P Q A) (rows : Nat)
    (kernel : Nat → Q) (kw : Nat) (m : EBorderManagement) (a b c d : Nat)
    (st : ConvState P) :
    ImageVerticalConvolution ops rows kernel kw
        (ImageVerticalConvolution ops rows kernel kw st a b m) c d m =
      ImageVerticalConvolution ops rows kernel kw
        (ImageVerticalConvolution ops rows kernel kw st c d m) a b m := by
  refine ConvState.ext ?_ ?_
  · simp only [ImageVerticalConvolution_img]
  · funext r c'
    simp only [ImageVerticalConvolution_out, ImageVerticalConvolution_img]
    split_ifs <;> rfl

theorem hconvIP_pair [AddCommMonoid A] (ops : ConvOps P Q A) (cols : Nat)
    (kernel : Nat → Q) (kw : Nat) (m : EBorderManagement) (a b c d : Nat)
    (img : Img P)
    (hdisj : ∀ r', ¬((a ≤ r' ∧ r' < b) ∧ (c ≤ r' ∧ r' < d))) (r c' : Nat) :
    ImageHorizontalConvolutionInPlace ops cols kernel kw
        (ImageHorizontalConvolutionInPlace ops cols kernel kw img a b m) c d m r c' =
      if ((a ≤ r ∧ r < b) ∨ (c ≤ r ∧ r < d)) ∧ hWrites m cols kw c' then
        hValue ops img cols kernel kw m r c'
      else img r c' := by
  rw [ImageHorizontalConvolutionInPlace_eq ops cols kernel kw _ c d m r c']
  by_cases hw : hWrites m cols kw c'
  · by_cases h1 : c ≤ r ∧ r < d
    · rw [if_pos ⟨h1.1, h1.2, hw⟩, if_pos ⟨Or.inr h1, hw⟩]
      exact hValue_congr ops _ img cols kernel kw m r c' fun c'' => by
        rw [ImageHorizontalConvolutionInPlace_eq, if_neg (by
          rintro ⟨ha1, ha2, -⟩
          exact hdisj r ⟨⟨ha1, ha2⟩, h1⟩)]
    · rw [if_neg (by tauto), ImageHorizontalConvolutionInPlace_eq]
      by_cases h2 : a ≤ r ∧ r < b
      · rw [if_pos ⟨h2.1, h2.2, hw⟩, if_pos ⟨Or.inl h2, hw⟩]
      · rw [if_neg (by tauto), if_neg (by rintro ⟨h3 | h3, -⟩; exacts [h2 h3, h1 h3])]
  · rw [if_neg (by tauto), ImageHorizontalConvolutionInPlace_eq, if_neg (by tauto),
      if_neg (by tauto)]

theorem hconvIP_comm [AddCommMonoid A] (ops : ConvOps P Q A) (cols : Nat)
    (kernel : Nat → Q) (kw : Nat) (m : EBorderManagement) (a b c d : Nat)
    (img : Img P)
    (hdisj : ∀ r', ¬((a ≤ r' ∧ r' < b) ∧ (c ≤ r' ∧ r' < d))) :
    ImageHorizontalConvolutionInPlace ops cols kernel kw
        (ImageHorizontalConvolutionInPlace ops cols kernel kw img a b m) c d m =
      ImageHorizontalConvolutionInPlace ops cols kernel kw
        (ImageHorizontalConvolutionInPlace ops cols kernel kw img c d m) a b m := by
  funext r c'
  rw [hconvIP_pair ops cols kernel kw m a b c d img hdisj r c',
    hconvIP_pair ops cols kernel kw m c d a b img (fun r' h => hdisj r' ⟨h.2, h.1⟩) r c']
  exact if_congr (by tauto) rfl rfl

theorem vconvIP_pair [AddCommMonoid A] (ops : ConvOps P Q A) (rows : Nat)
    (kernel : Nat → Q) (kw : Nat) (m : EBorderManagement) (a b c d : Nat)
    (img : Img P)
    (hdisj : ∀ c', ¬((a ≤ c' ∧ c' < b) ∧ (c ≤ c' ∧ c' < d))) (r c' : Nat) :
    ImageVerticalConvolutionInPlace ops rows kernel kw
        (ImageVerticalConvolutionInPlace ops rows kernel kw img a b m) c d m r c' =
      if ((a ≤ c' ∧ c' < b) ∨ (c ≤ c' ∧ c' < d)) ∧ vWritesIP m rows kw r then
        vValueIP ops img rows kernel kw m r c'
      else img r c' := by
  rw [ImageVerticalConvolutionInPlace_eq ops rows kernel kw _ c d m r c']
  by_cases hw : vWritesIP m rows kw r
  · by_cases h1 : c ≤ c' ∧ c' < d
    · rw [if_pos ⟨h1.1, h1.2, hw⟩, if_pos ⟨Or.inr h1, hw⟩]
      exact vValueIP_congr ops _ img rows kernel kw m r c' fun r'' => by
        rw [ImageVerticalConvolutionInPlace_eq, if_neg (by
          rintro ⟨ha1, ha2, -⟩
          exact hdisj c' ⟨⟨ha1, ha2⟩, h1⟩)]
    · rw [if_neg (by tauto), ImageVerticalConvolutionInPlace_eq]
      by_cases h2 : a ≤ c' ∧ c' < b
      · rw [if_pos ⟨h2.1, h2.2, hw⟩, if_pos ⟨Or.inl h2, hw⟩]
      · rw [if_neg (by tauto), if_neg (by rintro ⟨h3 | h3, -⟩; exacts [h2 h3, h1 h3])]
  · rw [if_neg (by tauto), ImageVerticalConvolutionInPlace_eq, if_neg (by tauto),
      if_neg (by tauto)]

theorem vconvIP_comm [AddCommMonoid A] (ops : ConvOps P Q A) (rows : Nat)
    (kernel : Nat → Q) (kw : Nat) (m : EBorderManagement) (a b c d : Nat)
    (img : Img P)
    (hdisj : ∀ c', ¬((a ≤ c' ∧ c' < b) ∧ (c ≤ c' ∧ c' < d))) :
    ImageVerticalConvolutionInPlace ops rows kernel kw
        (ImageVerticalConvolutionInPlace ops rows kernel kw img a b m) c d m =
      ImageVerticalConvolutionInPlace ops rows kernel kw
        (ImageVerticalConvolutionInPlace ops rows kernel kw img c d m) a b m := by
  funext r c'
  rw [vconvIP_pair ops rows kernel kw m a b c d img hdisj r c',
    vconvIP_pair ops rows kernel kw m c d a b img (fun c'' h => hdisj c'' ⟨h.2, h.1⟩) r c']
  exact if_congr (by tauto) rfl rfl

/-! ### Threaded entry points equal the single full-range call -/

theorem hthread_eq_full [AddCommMonoid A] (ops : ConvOps P Q A) (cols : Nat)
    (kernel : Nat → Q) (kw : Nat) (st : ConvState P) (rows : Nat)
    (m : EBorderManagement) (nb : Nat) :
    ImageHorizontalConvolutionCPPThread ops cols kernel kw st rows m nb =
      ImageHorizontalConvolution ops cols kernel kw st 0 rows m :=
  foldPairs_full _ (fun a st' => hconv_nil ops cols kernel kw a st' m)
    (fun a b c st' hab hbc => hconv_concat ops cols kernel kw m a b c st' hab hbc)
    rows (SplitRange 0 rows nb) st (SplitRange_chain rows nb)
    (SplitRange_head rows nb) (SplitRange_getLast rows nb)

theorem hthreadIP_eq_full [AddCommMonoid A] (ops : ConvOps P Q A) (cols : Nat)
    (kernel : Nat → Q) (kw : Nat) (img : Img P) (rows : Nat)
    (m : EBorderManagement) (nb : Nat) :
    ImageHorizontalConvolutionCPPThreadInPlace ops cols kernel kw img rows m nb =
      ImageHorizontalConvolutionInPlace ops cols kernel kw img 0 rows m :=
  foldPairs_full _ (fun a img' => hconvIP_nil ops cols kernel kw a img' m)
    (fun a b c img' hab hbc => hconvIP_concat ops cols kernel kw m a b c img' hab hbc)
    rows (SplitRange 0 rows nb) img (SplitRange_chain rows nb)
    (SplitRange_head rows nb) (SplitRange_getLast rows nb)

theorem vthread_eq_full [AddCommMonoid A] (ops : ConvOps P Q A) (rows : Nat)
    (kernel : Nat → Q) (kw : Nat) (st : ConvState P) (cols : Nat)
    (m : EBorderManagement) (nb : Nat) :
    ImageVerticalConvolutionCPPThread ops rows kernel kw st cols m nb =
      ImageVerticalConvolution ops rows kernel kw st 0 cols m :=
  foldPairs_full _ (fun a st' => vconv_nil ops rows kernel kw a st' m)
    (fun a b c st' hab hbc => vconv_concat ops rows kernel kw m a b c st' hab hbc)
    cols (SplitRange 0 cols nb) st (SplitRange_chain cols nb)
    (SplitRange_head cols nb) (SplitRange_getLast cols nb)

theorem vthreadIP_eq_full [AddCommMonoid A] (ops : ConvOps P Q A) (rows : Nat)
    (kernel : Nat → Q) (kw : Nat) (img : Img P) (cols : Nat)
    (m : EBorderManagement) (nb : Nat) :
    ImageVerticalConvolutionCPPThreadInPlace ops rows kernel kw img cols m nb =
      ImageVerticalConvolutionInPlace ops rows kernel kw img 0 cols m :=
  foldPairs_full _ (fun a img' => vconvIP_nil ops rows kernel kw a img' m)
    (fun a b c img' hab hbc => vconvIP_concat ops rows kernel kw m a b c img' hab hbc)
    cols (SplitRange 0 cols nb) img (SplitRange_chain cols nb)
    (SplitRange_head cols nb) (SplitRange_getLast cols nb)

theorem foldPairs_img (f : Nat → Nat → ConvState P → ConvState P)
    (h : ∀ a b st, (f a b st).img = st.img) :
    ∀ (l : List Nat) (st : ConvState P), (foldPairs f l st).img = st.img
  | [], _ => rfl
  | [_], _ => rfl
  | a :: b :: rest, st => by
      show (foldPairs f (b :: rest) (f a b st)).img = st.img
      rw [foldPairs_img f h (b :: rest) (f a b st), h]

/-! ### Shared concrete instances -/

/-- The integer pixel model: pixel, kernel scalar and accumulator all `Int`,
product is integer multiplication, narrowing is the identity. -/
def intOps : ConvOps Int Int Int := ⟨fun p q => p * q, id⟩

/-- The one-row five-column buffer `[1,2,3,4,5]` of the spec's examples. -/
def img15 : Img Int := fun _ c => ([1, 2, 3, 4, 5] : List Int).getD c 0

/-- The all-ones kernel (in particular `[1,1,1]` when used with width 3 and
`[1]` when used with width 1). -/
def kOnes : Nat → Int := fun _ => 1

theorem chain'_zip_le : ∀ (l : List Nat), List.Chain' (· ≤ ·) l →
    ∀ p ∈ l.zip l.tail, p.1 ≤ p.2
  | [], _, p, hp => by simp at hp
  | [a], _, p, hp => by simp at hp
  | a :: b :: rest, hchain, p, hp => by
      rw [List.tail_cons, List.zip_cons_cons, List.mem_cons] at hp
      rcases hp with rfl | hp
      · exact (List.chain'_cons.mp hchain).1
      · exact chain'_zip_le (b :: rest) (List.chain'_cons.mp hchain).2 p hp

/-! ### The claims -/

/-- C1: for every input buffer, odd-length kernel and border policy, applying the
single-band convolution engine to the consecutive disjoint bands of any monotone
partition of the full extent (first boundary 0, last boundary the extent) —
sequentially, and for disjoint bands in either order — produces the same result
as one engine call over the full range; consequently every threaded entry point
(horizontal/vertical, copy-mode/in-place) computes exactly the single-band
full-range result for any worker count. -/
theorem band_partition_and_threading_transparent [AddCommMonoid A]
    (ops : ConvOps P Q A) (cols rows : Nat) (kernel : Nat → Q) (kw : Nat)
    (hodd : kw % 2 = 1) (m : EBorderManagement) (st : ConvState P) (img0 : Img P)
    (bands : List Nat) (hchain : List.Chain' (· ≤ ·) bands)
    (hhead : bands.head? = some 0) :
    (bands.getLast? = some rows →
      foldPairs (fun a b acc => ImageHorizontalConvolution ops cols kernel kw acc a b m)
          bands st =
        ImageHorizontalConvolution ops cols kernel kw st 0 rows m)
    ∧ (bands.getLast? = some cols →
      foldPairs (fun a b acc => ImageVerticalConvolution ops rows kernel kw acc a b m)
          bands st =
        ImageVerticalConvolution ops rows kernel kw st 0 cols m)
    ∧ (bands.getLast? = some rows →
      foldPairs
          (fun a b acc => ImageHorizontalConvolutionInPlace ops cols kernel kw acc a b m)
          bands img0 =
        ImageHorizontalConvolutionInPlace ops cols kernel kw img0 0 rows m)
    ∧ (bands.getLast? = some cols →
      foldPairs
          (fun a b acc => ImageVerticalConvolutionInPlace ops rows kernel kw acc a b m)
          bands img0 =
        ImageVerticalConvolutionInPlace ops rows kernel kw img0 0 cols m)
    ∧ (∀ nb, ImageHorizontalConvolutionCPPThread ops cols kernel kw st rows m nb =
        ImageHorizontalConvolution ops cols kernel kw st 0 rows m)
    ∧ (∀ nb, ImageVerticalConvolutionCPPThread ops rows kernel kw st cols m nb =
        ImageVerticalConvolution ops rows kernel kw st 0 cols m)
    ∧ (∀ nb, ImageHorizontalConvolutionCPPThreadInPlace ops cols kernel kw img0 rows m nb =
        ImageHorizontalConvolutionInPlace ops cols kernel kw img0 0 rows m)
    ∧ (∀ nb, ImageVerticalConvolutionCPPThreadInPlace ops rows kernel kw img0 cols m nb =
        ImageVerticalConvolutionInPlace ops rows kernel kw img0 0 cols m)
    ∧ (∀ a b c d,
        ImageHorizontalConvolution ops cols kernel kw
            (ImageHorizontalConvolution ops cols kernel kw st a b m) c d m =
          ImageHorizontalConvolution ops cols kernel kw
            (ImageHorizontalConvolution ops cols kernel kw st c d m) a b m)
    ∧ (∀ a b c d,
        ImageVerticalConvolution ops rows kernel kw
            (ImageVerticalConvolution ops rows kernel kw st a b m) c d m =
          ImageVerticalConvolution ops rows kernel kw
            (ImageVerticalConvolution ops rows kernel kw st c d m) a b m)
    ∧ (∀ a b c d, (∀ r', ¬((a ≤ r' ∧ r' < b) ∧ (c ≤ r' ∧ r' < d))) →
        ImageHorizontalConvolutionInPlace ops cols kernel kw
            (ImageHorizontalConvolutionInPlace ops cols kernel kw img0 a b m) c d m =
          ImageHorizontalConvolutionInPlace ops cols kernel kw
            (ImageHorizontalConvolutionInPlace ops cols kernel kw img0 c d m) a b m)
    ∧ (∀ a b c d, (∀ c', ¬((a ≤ c' ∧ c' < b) ∧ (c ≤ c' ∧ c' < d))) →
        ImageVerticalConvolutionInPlace ops rows kernel kw
            (ImageVerticalConvolutionInPlace ops rows kernel kw img0 a b m) c d m =
          ImageVerticalConvolutionInPlace ops rows kernel kw
            (ImageVerticalConvolutionInPlace ops rows kernel kw img0 c d m) a b m) := by
  refine ⟨?_, ?_, ?_, ?_, ?_, ?_, ?_, ?_, ?_, ?_, ?_, ?_⟩
  · exact fun hlast => foldPairs_full _ (fun a st' => hconv_nil ops cols kernel kw a st' m)
      (fun a b c st' hab hbc => hconv_concat ops cols kernel kw m a b c st' hab hbc)
      rows bands st hchain hhead hlast
  · exact fun hlast => foldPairs_full _ (fun a st' => vconv_nil ops rows kernel kw a st' m)
      (fun a b c st' hab hbc => vconv_concat ops rows kernel kw m a b c st' hab hbc)
      cols bands st hchain hhead hlast
  · exact fun hlast => foldPairs_full _ (fun a i => hconvIP_nil ops cols kernel kw a i m)
      (fun a b c i hab hbc => hconvIP_concat ops cols kernel kw m a b c i hab hbc)
      rows bands img0 hchain hhead hlast
  · exact fun hlast => foldPairs_full _ (fun a i => vconvIP_nil ops rows kernel kw a i m)
      (fun a b c i hab hbc => vconvIP_concat ops rows kernel kw m a b c i hab hbc)
      cols bands img0 hchain hhead hlast
  · exact fun nb => hthread_eq_full ops cols kernel kw st rows m nb
  · exact fun nb => vthread_eq_full ops rows kernel kw st cols m nb
  · exact fun nb => hthreadIP_eq_full ops cols kernel kw img0 rows m nb
  · exact fun nb => vthreadIP_eq_full ops rows kernel kw img0 cols m nb
  · exact fun a b c d => hconv_comm ops cols kernel kw m a b c d st
  · exact fun a b c d => vconv_comm ops rows kernel kw m a b c d st
  · exact fun a b c d hd => hconvIP_comm ops cols kernel kw m a b c d img0 hd
  · exact fun a b c d hd => vconvIP_comm ops rows kernel kw m a b c d img0 hd

theorem band_partition_and_threading_transparent_witness :
    (1 % 2 = 1) ∧ List.Chain' (· ≤ ·) [0, 1, 2] ∧ ([0, 1, 2] : List Nat).head? = some 0 ∧
    ([0, 1, 2] : List Nat).getLast? = some 2 ∧
    foldPairs
        (fun a b acc => ImageHorizontalConvolution intOps 2 kOnes 1 acc a b BORDER_COPY)
        [0, 1, 2] ⟨img15, img15⟩ =
      ImageHorizontalConvolution intOps 2 kOnes 1 ⟨img15, img15⟩ 0 2 BORDER_COPY :=
  ⟨by decide, by simp, by decide, by decide,
    (band_partition_and_threading_transparent intOps 2 2 kOnes 1 (by decide) BORDER_COPY
      ⟨img15, img15⟩ img15 [0, 1, 2] (by simp) (by decide)).1 (by decide)⟩

/-- C2: every value a convolution pass stores is the kernel-weighted sum
`Σ_{k<kw} neighbor(k) * kernel(k)` of the source neighborhood, accumulated from
the accumulator zero in the accumulator type and narrowed to the pixel type only
at the store — for the horizontal and vertical passes, both border policies. -/
theorem written_values_are_kernel_weighted_sums [AddCommMonoid A]
    (ops : ConvOps P Q A) (cols rows : Nat) (kernel : Nat → Q) (kw : Nat)
    (st : ConvState P) (s e row col : Nat) :
    (s ≤ row → row < e → kw / 2 ≤ col → col < cols - kw / 2 →
      (ImageHorizontalConvolution ops cols kernel kw st s e BORDER_CROP).out row col =
        ops.narrow (∑ k ∈ Finset.range kw,
          ops.mul (st.img row (k + col - kw / 2)) (kernel k)))
    ∧ (s ≤ row → row < e → col < cols →
      (ImageHorizontalConvolution ops cols kernel kw st s e BORDER_COPY).out row col =
        ops.narrow (∑ k ∈ Finset.range kw,
          ops.mul (paddedRow st.img cols (kw / 2) row (col + k)) (kernel k)))
    ∧ (s ≤ col → col < e → kw / 2 ≤ row → row < rows - kw / 2 →
      (ImageVerticalConvolution ops rows kernel kw st s e BORDER_CROP).out row col =
        ops.narrow (∑ k ∈ Finset.range kw,
          ops.mul (st.img (k + row - kw / 2) col) (kernel k)))
    ∧ (s ≤ col → col < e → row < rows →
      (ImageVerticalConvolution ops rows kernel kw st s e BORDER_COPY).out row col =
        ops.narrow (∑ k ∈ Finset.range kw,
          ops.mul (st.img (clampRow rows (kw / 2) row k) col) (kernel k))) := by
  refine ⟨?_, ?_, ?_, ?_⟩
  · intro h1 h2 h3 h4
    rw [ImageHorizontalConvolution_out, if_pos ⟨h1, h2, h3, h4⟩]
    show ops.narrow (accumKernel ops _ kernel kw) = _
    rw [accumKernel_eq_sum]
  · intro h1 h2 h3
    rw [ImageHorizontalConvolution_out,
      if_pos (show s ≤ row ∧ row < e ∧ hWrites BORDER_COPY cols kw col from ⟨h1, h2, h3⟩)]
    show conv_buffer_ ops (paddedRow st.img cols (kw / 2) row) kernel cols kw col = _
    unfold conv_buffer_
    rw [if_pos h3]
    show ops.narrow (accumKernel ops _ kernel kw) = _
    rw [accumKernel_eq_sum]
  · intro h1 h2 h3 h4
    rw [ImageVerticalConvolution_out,
      if_pos (show vWrites BORDER_CROP rows kw s e row col from ⟨h1, h2, h3, h4⟩)]
    show ops.narrow (accumKernel ops _ kernel kw) = _
    rw [accumKernel_eq_sum]
  · intro h1 h2 h3
    rw [ImageVerticalConvolution_out,
      if_pos (show vWrites BORDER_COPY rows kw s e row col from ⟨h3, h1, h2⟩)]
    show ops.narrow (accumKernel ops _ kernel kw) = _
    rw [accumKernel_eq_sum]

theorem written_values_are_kernel_weighted_sums_witness :
    ((0 : Nat) ≤ 0 ∧ 0 < 1 ∧ 3 / 2 ≤ 2 ∧ 2 < 5 - 3 / 2) ∧
    (ImageHorizontalConvolution intOps 5 kOnes 3 ⟨img15, img15⟩ 0 1 BORDER_CROP).out 0 2 =
      intOps.narrow (∑ k ∈ Finset.range 3,
        intOps.mul (img15 0 (k + 2 - 3 / 2)) (kOnes k)) :=
  ⟨⟨by decide, by decide, by decide, by decide⟩,
    (written_values_are_kernel_weighted_sums intOps 5 5 kOnes 3 ⟨img15, img15⟩
      0 1 0 2).1 (by decide) (by decide) (by decide) (by decide)⟩

/-- C3: on the one-row buffer `[1,2,3,4,5]` with kernel `[1,1,1]`, copy-mode
horizontal convolution with `BORDER_CROP` over the full row range writes only
columns 1, 2, 3 with values 6, 9, 12, and leaves columns 0 and 4 exactly as the
output buffer held them before the call. -/
theorem border_crop_concrete_row (out : Img Int) :
    (ImageHorizontalConvolution intOps 5 kOnes 3 ⟨img15, out⟩ 0 1 BORDER_CROP).out 0 1 = 6
    ∧ (ImageHorizontalConvolution intOps 5 kOnes 3 ⟨img15, out⟩ 0 1 BORDER_CROP).out 0 2 = 9
    ∧ (ImageHorizontalConvolution intOps 5 kOnes 3 ⟨img15, out⟩ 0 1 BORDER_CROP).out 0 3 = 12
    ∧ (ImageHorizontalConvolution intOps 5 kOnes 3 ⟨img15, out⟩ 0 1 BORDER_CROP).out 0 0 =
        out 0 0
    ∧ (ImageHorizontalConvolution intOps 5 kOnes 3 ⟨img15, out⟩ 0 1 BORDER_CROP).out 0 4 =
        out 0 4 :=
  ⟨rfl, rfl, rfl, rfl, rfl⟩

/-- C4: on the one-row buffer `[1,2,3,4,5]` with kernel `[1,1,1]`, copy-mode
horizontal convolution with `BORDER_COPY` over the full row range writes all
five columns with `[4,6,9,12,14]` (the row virtually extended by clamped
replicas of its first and last pixel). -/
theorem border_copy_concrete_row (out : Img Int) :
    (ImageHorizontalConvolution intOps 5 kOnes 3 ⟨img15, out⟩ 0 1 BORDER_COPY).out 0 0 = 4
    ∧ (ImageHorizontalConvolution intOps 5 kOnes 3 ⟨img15, out⟩ 0 1 BORDER_COPY).out 0 1 = 6
    ∧ (ImageHorizontalConvolution intOps 5 kOnes 3 ⟨img15, out⟩ 0 1 BORDER_COPY).out 0 2 = 9
    ∧ (ImageHorizontalConvolution intOps 5 kOnes 3 ⟨img15, out⟩ 0 1 BORDER_COPY).out 0 3 = 12
    ∧ (ImageHorizontalConvolution intOps 5 kOnes 3 ⟨img15, out⟩ 0 1 BORDER_COPY).out 0 4 = 14 :=
  ⟨rfl, rfl, rfl, rfl, rfl⟩

/-- C5: a copy-mode single-band call writes only inside its assigned band: every
output element whose row (horizontal pass) or column (vertical pass) lies
outside `[start, end)` keeps its pre-call value, for both border policies. -/
theorem copy_mode_writes_only_inside_band [AddCommMonoid A] (ops : ConvOps P Q A)
    (cols rows : Nat) (kernel : Nat → Q) (kw : Nat) (st : ConvState P) (s e : Nat)
    (m : EBorderManagement) (r c : Nat) :
    (¬(s ≤ r ∧ r < e) →
      (ImageHorizontalConvolution ops cols kernel kw st s e m).out r c = st.out r c)
    ∧ (¬(s ≤ c ∧ c < e) →
      (ImageVerticalConvolution ops rows kernel kw st s e m).out r c = st.out r c) := by
  constructor
  · intro h
    rw [ImageHorizontalConvolution_out, if_neg (by tauto)]
  · intro h
    rw [ImageVerticalConvolution_out, if_neg ?_]
    cases m <;> simp only [vWrites] <;> tauto

theorem copy_mode_writes_only_inside_band_witness :
    ¬((0 : Nat) ≤ 3 ∧ 3 < 1) ∧
    (ImageHorizontalConvolution intOps 5 kOnes 3 ⟨img15, img15⟩ 0 1 BORDER_COPY).out 3 0 =
      img15 3 0 :=
  ⟨by decide,
    (copy_mode_writes_only_inside_band intOps 5 5 kOnes 3 ⟨img15, img15⟩ 0 1
      BORDER_COPY 3 0).1 (by decide)⟩

/-- C6: copy-mode convolution — single-band horizontal/vertical and the threaded
entry points — never modifies the input buffer. -/
theorem copy_mode_preserves_input [AddCommMonoid A] (ops : ConvOps P Q A)
    (cols rows : Nat) (kernel : Nat → Q) (kw : Nat) (st : ConvState P) (s e : Nat)
    (m : EBorderManagement) (nb : Nat) :
    (ImageHorizontalConvolution ops cols kernel kw st s e m).img = st.img
    ∧ (ImageVerticalConvolution ops rows kernel kw st s e m).img = st.img
    ∧ (ImageHorizontalConvolutionCPPThread ops cols kernel kw st rows m nb).img = st.img
    ∧ (ImageVerticalConvolutionCPPThread ops rows kernel kw st cols m nb).img = st.img :=
  ⟨ImageHorizontalConvolution_img ops cols kernel kw st s e m,
    ImageVerticalConvolution_img ops rows kernel kw st s e m,
    foldPairs_img _ (fun a b st' => ImageHorizontalConvolution_img ops cols kernel kw st' a b m)
      (SplitRange 0 rows nb) st,
    foldPairs_img _ (fun a b st' => ImageVerticalConvolution_img ops rows kernel kw st' a b m)
      (SplitRange 0 cols nb) st⟩

/-- C7 counterexample: with extent `N = 2` and worker count `T = 3` the spec's
band table `SplitRange 0 2 3 = [0,0,1,2]` contains the empty band `[0,0)`, and
the spawn loop's band list (one worker per adjacent boundary pair, no emptiness
check) still contains that empty band — a worker is spawned for it and the
engine is invoked on the empty range, contradicting the claim that empty bands
are skipped. -/
theorem empty_band_still_spawned :
    SplitRange 0 2 3 = [0, 0, 1, 2]
    ∧ spawnedBands (SplitRange 0 2 3) = [(0, 0), (0, 1), (1, 2)]
    ∧ (0, 0) ∈ spawnedBands (SplitRange 0 2 3) := by decide

/-- C7 amended: the threaded entry points spawn one worker per adjacent boundary
pair — `max T 1` workers in total, regardless of how many bands are empty — so
empty bands are *not* skipped; every spawned band satisfies `start ≤ end` (never
an inverted range), and invoking any engine on an empty range `[a, a)` performs
no iterations and leaves the buffers untouched, so the un-skipped empty bands
are harmless no-ops. -/
theorem spawn_per_pair_and_empty_range_noop [AddCommMonoid A] (ops : ConvOps P Q A)
    (cols rows : Nat) (kernel : Nat → Q) (kw : Nat) (st : ConvState P)
    (img0 : Img P) (m : EBorderManagement) (N T a : Nat) :
    (spawnedBands (SplitRange 0 N T)).length = max T 1
    ∧ (∀ p ∈ spawnedBands (SplitRange 0 N T), p.1 ≤ p.2)
    ∧ ImageHorizontalConvolution ops cols kernel kw st a a m = st
    ∧ ImageVerticalConvolution ops rows kernel kw st a a m = st
    ∧ ImageHorizontalConvolutionInPlace ops cols kernel kw img0 a a m = img0
    ∧ ImageVerticalConvolutionInPlace ops rows kernel kw img0 a a m = img0 := by
  refine ⟨?_, ?_, ?_, ?_, ?_, ?_⟩
  · rw [spawnedBands, List.length_zip, List.length_tail, SplitRange_length]
    omega
  · exact fun p hp => chain'_zip_le _ (SplitRange_chain N T) p hp
  · exact hconv_nil ops cols kernel kw a st m
  · exact vconv_nil ops rows kernel kw a st m
  · exact hconvIP_nil ops cols kernel kw a img0 m
  · exact vconvIP_nil ops rows kernel kw a img0 m

/-- C8: for every buffer, odd-length kernel, range and border policy, the
in-place single-band convolution leaves the buffer equal, everywhere, to the
output of the copy-mode single-band convolution run from a copy of the original
buffer — the working row/column is captured before any overwrite, so in-place
accumulation reads only pre-call values. -/
theorem inplace_refines_copy_mode [AddCommMonoid A] (ops : ConvOps P Q A)
    (cols rows : Nat) (kernel : Nat → Q) (kw : Nat) (hodd : kw % 2 = 1)
    (img : Img P) (s e : Nat) (m : EBorderManagement) :
    ImageHorizontalConvolutionInPlace ops cols kernel kw img s e m =
      (ImageHorizontalConvolution ops cols kernel kw ⟨img, img⟩ s e m).out
    ∧ ImageVerticalConvolutionInPlace ops rows kernel kw img s e m =
      (ImageVerticalConvolution ops rows kernel kw ⟨img, img⟩ s e m).out := by
  constructor
  · funext r c
    rw [ImageHorizontalConvolutionInPlace_eq, ImageHorizontalConvolution_out]
  · funext r c
    cases m
    · rw [ImageVerticalConvolutionInPlace_eq, ImageVerticalConvolution_out]
      by_cases h : s ≤ c ∧ c < e ∧ r < rows
      · rw [if_pos (show s ≤ c ∧ c < e ∧ vWritesIP BORDER_COPY rows kw r from h),
          if_pos (show vWrites BORDER_COPY rows kw s e r c from ⟨h.2.2, h.1, h.2.1⟩)]
        exact vValueIP_eq_vValue ops img rows kernel kw BORDER_COPY r c h.2.2
      · rw [if_neg (show ¬(s ≤ c ∧ c < e ∧ vWritesIP BORDER_COPY rows kw r) from h),
          if_neg (show ¬vWrites BORDER_COPY rows kw s e r c by
            simp only [vWrites]; tauto)]
    · rw [ImageVerticalConvolutionInPlace_eq, ImageVerticalConvolution_out]
      by_cases h : s ≤ c ∧ c < e ∧ kw / 2 ≤ r ∧ r < rows - kw / 2
      · rw [if_pos (show s ≤ c ∧ c < e ∧ vWritesIP BORDER_CROP rows kw r from h),
          if_pos (show vWrites BORDER_CROP rows kw s e r c from h)]
        rfl
      · rw [if_neg (show ¬(s ≤ c ∧ c < e ∧ vWritesIP BORDER_CROP rows kw r) from h),
          if_neg (show ¬vWrites BORDER_CROP rows kw s e r c from h)]

theorem inplace_refines_copy_mode_witness :
    (3 % 2 = 1) ∧
    ImageHorizontalConvolutionInPlace intOps 5 kOnes 3 img15 0 1 BORDER_COPY =
      (ImageHorizontalConvolution intOps 5 kOnes 3 ⟨img15, img15⟩ 0 1 BORDER_COPY).out :=
  ⟨by decide,
    (inplace_refines_copy_mode intOps 5 5 kOnes 3 (by decide) img15 0 1 BORDER_COPY).1⟩

theorem hValue_kOnes_one (img : Img Int) (cols : Nat) (m : EBorderManagement)
    (r c : Nat) (hw : hWrites m cols 1 c) :
    hValue intOps img cols kOnes 1 m r c = img r c := by
  cases m
  · show conv_buffer_ intOps (paddedRow img cols (1 / 2) r) kOnes cols 1 c = img r c
    unfold conv_buffer_
    rw [if_pos (show c < cols from hw)]
    show (0 + paddedRow img cols (1 / 2) r (c + 0) * 1 : Int) = img r c
    rw [zero_add, mul_one]
    show paddedRow img cols 0 r (c + 0) = img r c
    unfold paddedRow
    rw [if_neg (by omega), if_pos (by
      show c + 0 < 0 + cols
      have : c < cols := hw
      omega)]
    congr 1
  · show (0 + img r (0 + c - 1 / 2) * 1 : Int) = img r c
    rw [zero_add, mul_one]
    congr 1
    omega

/-- C9: invoking in-place convolution (horizontal or vertical) with the identity
kernel of length 1 and weight 1 leaves every element of the buffer exactly as it
was, for every buffer, range and border policy. -/
theorem identity_kernel_inplace_fixed_point (img : Img Int) (cols rows s e : Nat)
    (m : EBorderManagement) :
    ImageHorizontalConvolutionInPlace intOps cols kOnes 1 img s e m = img
    ∧ ImageVerticalConvolutionInPlace intOps rows kOnes 1 img s e m = img := by
  constructor
  · funext r c
    rw [ImageHorizontalConvolutionInPlace_eq]
    by_cases h : s ≤ r ∧ r < e ∧ hWrites m cols 1 c
    · rw [if_pos h]
      exact hValue_kOnes_one img cols m r c h.2.2
    · rw [if_neg h]
  · funext r c
    rw [ImageVerticalConvolutionInPlace_eq]
    by_cases h : s ≤ c ∧ c < e ∧ vWritesIP m rows 1 r
    · rw [if_pos h]
      cases m
      · show conv_buffer_ intOps (paddedCol img rows (1 / 2) c) kOnes rows 1 r = img r c
        unfold conv_buffer_
        rw [if_pos (show r < rows from h.2.2)]
        show (0 + paddedCol img rows (1 / 2) c (r + 0) * 1 : Int) = img r c
        rw [zero_add, mul_one]
        show paddedCol img rows 0 c (r + 0) = img r c
        unfold paddedCol
        rw [if_neg (by omega), if_pos (by
          show r + 0 < 0 + rows
          have : r < rows := h.2.2
          omega)]
        congr 1
      · show (0 + img (0 + r - 1 / 2) c * 1 : Int) = img r c
        rw [zero_add, mul_one]
        congr 1
        omega
    · rw [if_neg h]

/-- C10: in the copy-mode vertical `BORDER_COPY` pass, for any column band
`[start_col, end_col)` (including widths below 4 or not divisible by 4), the
4-wide unrolled loop (running while `col < end_col - 4`) plus the scalar tail
together write exactly the columns `start_col, …, end_col - 1` in order, with
no column skipped or duplicated, and each written output value equals the
scalar reference sum over the clamped row indices. -/
theorem vertical_unrolled_band_writes_each_column_once [AddCommMonoid A]
    (ops : ConvOps P Q A) (rows : Nat) (kernel : Nat → Q) (kw : Nat)
    (st : ConvState P) (s e r c : Nat) :
    vRowWriteCols s e = List.range' s (e - s)
    ∧ (vRowWriteCols s e).Nodup
    ∧ ((ImageVerticalConvolution ops rows kernel kw st s e BORDER_COPY).out r c =
        if r < rows ∧ s ≤ c ∧ c < e then
          ops.narrow (∑ k ∈ Finset.range kw,
            ops.mul (st.img (clampRow rows (kw / 2) r k) c) (kernel k))
        else st.out r c) := by
  refine ⟨vRowWriteCols_eq s e, ?_, ?_⟩
  · rw [vRowWriteCols_eq]
    exact List.nodup_range' s (e - s)
  · rw [ImageVerticalConvolution_out]
    simp only [vWrites, vValue]
    rw [accumKernel_eq_sum]

end OpenMVG
